import Mathlib

/-!
Verification of the equation-analysis front end of the devito fork
(`devito/ir/equations/algorithms.py` and `devito/stencil.py`): dimension
ordering (`dimension_sort`, `order_relations`, `handle_indexed`) and
stencil/footprint extraction (`Stencil.extract`, `Stencil.union`,
`Stencil.get`, `Stencil.subtract`).

The symbolic layer (sympy expressions, `Dimension` objects, the helpers
`split_affine`, `retrieve_indexed`, `PartialOrderTuple`,
`DefaultOrderedDict` from `devito.symbolics` / `devito.tools`) is not part
of the sampled source files; those parts are modelled from the
specification and are marked as such in their doc comments.
-/

namespace Devito

/-- Modelled from the spec: a `Dimension` is a named symbolic axis with a
kind (Space / NonSpace) and an optional parent; a dimension with a parent
is *derived*.  (`devito.types.Dimension` is not among the sampled source
files.) -/
inductive Dimension where
  | base (name : String) (isSpace : Bool)
  | derived (name : String) (isSpace : Bool) (parent : Dimension)
deriving DecidableEq, Repr

/-- Name of a dimension. -/
def Dimension.name : Dimension → String
  | .base n _ => n
  | .derived n _ _ => n

/-- Space / NonSpace classification (`d.is_Space` in the source). -/
def Dimension.is_Space : Dimension → Bool
  | .base _ s => s
  | .derived _ s _ => s

/-- Whether the dimension is derived (`d.is_Derived` in the source). -/
def Dimension.is_Derived : Dimension → Bool
  | .base _ _ => false
  | .derived _ _ _ => true

/-- Parent of a derived dimension (`d.parent` in the source; only ever
read on derived dimensions, so on a non-derived dimension we return the
dimension itself). -/
def Dimension.parentD : Dimension → Dimension
  | .base n s => .base n s
  | .derived _ _ p => p

/-- Modelled from the spec: `root(d)` is the topmost ancestor found by
following `parent` links (`d.root` in the source). -/
def Dimension.root : Dimension → Dimension
  | .base n s => .base n s
  | .derived _ _ p => p.root

/-- A named array-like object ("function") together with its declared
ordered tuple of index dimensions (`i.function.indices` in the source). -/
structure DFunction where
  name : String
  indices : List Dimension
deriving DecidableEq, Repr

/-- Symbolic expressions: bare dimensions, integer literals, plain
(non-dimension) symbols, sums, products, and indexed accesses. -/
inductive SExpr where
  | dim (d : Dimension)
  | int (n : Int)
  | sym (s : String)
  | add (a b : SExpr)
  | mul (a b : SExpr)
  | indexed (f : DFunction) (idxs : List SExpr)

/-- An equation: a left/right pair of expressions, optionally carrying a
Subdomain Ordering (`expr._subdomain.indices` in the source, modelled from
the spec as an ordered tuple of Dimensions). -/
structure Eqn where
  lhs : SExpr
  rhs : SExpr
  subdomain : Option (List Dimension) := none

/-- Modelled from the spec: the Affine Index Decomposer
(`devito.symbolics.split_affine` is not among the sampled source files).
It succeeds iff the expression is exactly one Dimension optionally
combined with one integer literal via addition/subtraction, and returns
the dimension (`split_affine(i).var` in the source; the offset is unused
by `handle_indexed`).  Subtraction is represented as addition of a
negative literal. -/
def split_affine : SExpr → Option Dimension
  | .dim d => some d
  | .add (.dim d) (.int _) => some d
  | .add (.int _) (.dim d) => some d
  | _ => none

/-- Modelled from the spec: shallow retrieval of the outermost indexed
accesses of an expression (`retrieve_indexed(i)` inside `handle_indexed`;
the search does not descend into the indices of a found access, the
caller recurses instead). -/
def retrieveOuter : SExpr → List SExpr
  | .dim _ => []
  | .int _ => []
  | .sym _ => []
  | .add a b => retrieveOuter a ++ retrieveOuter b
  | .mul a b => retrieveOuter a ++ retrieveOuter b
  | .indexed f idxs => [SExpr.indexed f idxs]

mutual

/-- Modelled from the spec: deep retrieval of every indexed access
appearing anywhere in an expression, including accesses nested inside the
index expressions of other accesses, transitively
(`retrieve_indexed(expr, mode='all')` / `retrieve_indexed(expr, deep=True)`). -/
def retrieveDeep : SExpr → List SExpr
  | .dim _ => []
  | .int _ => []
  | .sym _ => []
  | .add a b => retrieveDeep a ++ retrieveDeep b
  | .mul a b => retrieveDeep a ++ retrieveDeep b
  | .indexed f idxs => SExpr.indexed f idxs :: retrieveDeepL idxs
termination_by structural e => e

/-- Deep retrieval over a list of expressions. -/
def retrieveDeepL : List SExpr → List SExpr
  | [] => []
  | e :: t => retrieveDeep e ++ retrieveDeepL t
termination_by structural l => l

end

mutual

/-- The Dimensions among the free symbols of an expression, in
left-to-right encounter order (sympy `free_symbols` restricted to
`Dimension`; the declared axes of an accessed function are not free
symbols of the access). -/
def freeDims : SExpr → List Dimension
  | .dim d => [d]
  | .int _ => []
  | .sym _ => []
  | .add a b => freeDims a ++ freeDims b
  | .mul a b => freeDims a ++ freeDims b
  | .indexed _ idxs => freeDimsL idxs
termination_by structural e => e

/-- Free dimensions of a list of expressions. -/
def freeDimsL : List SExpr → List Dimension
  | [] => []
  | e :: t => freeDims e ++ freeDimsL t
termination_by structural l => l

end

/-- Lexicographic comparison of character lists by code point, used as the
deterministic name order (an executable form of the usual string order). -/
def charListLe : List Char → List Char → Bool
  | [], _ => true
  | _ :: _, [] => false
  | a :: s, b :: t =>
      if a.toNat < b.toNat then true
      else if b.toNat < a.toNat then false
      else charListLe s t

/-- Deterministic string order by code points. -/
def strLe (a b : String) : Bool := charListLe a.data b.data

/-- Modelled from the spec: `filter_sorted` from `devito.tools` applied to
dimensions — remove duplicates and sort deterministically by name. -/
def filter_sorted (l : List Dimension) : List Dimension :=
  List.insertionSort (fun a b => strLe a.name b.name = true) l.dedup

mutual

/-- Translation of the `except ValueError` branch of `handle_indexed`
(lines 23-32 of `algorithms.py`): the dimensions contributed by the
indexed accesses nested inside an expression,
`flatten(handle_indexed(n) for n in retrieve_indexed(i))`, fused into one
structural recursion (see `nestedDims_eq_retrieveOuter`). -/
def nestedDims : SExpr → List Dimension
  | .dim _ => []
  | .int _ => []
  | .sym _ => []
  | .add a b => nestedDims a ++ nestedDims b
  | .mul a b => nestedDims a ++ nestedDims b
  | .indexed _ idxs => handleIdxList idxs
termination_by structural e => e

/-- Body of the `for i in indexed.indices` loop of `handle_indexed`
(lines 18-32 of `algorithms.py`): for each index, append the affine
dimension on success; otherwise append the dimensions of nested accesses
if that list is nonempty, else fall back to the sorted free-symbol
dimensions. -/
def handleIdxList : List SExpr → List Dimension
  | [] => []
  | i :: t =>
      (match split_affine i with
        | some d => [d]
        | none =>
            let nested := nestedDims i
            if nested.isEmpty then filter_sorted (freeDims i) else nested)
      ++ handleIdxList t
termination_by structural l => l

end

/-- Translation of `handle_indexed` (lines 16-33 of `algorithms.py`):
the relation extracted from one indexed access.  On a non-access
expression the result is empty (the source only calls it on accesses). -/
def handle_indexed : SExpr → List Dimension
  | .indexed _ idxs => handleIdxList idxs
  | _ => []

/-- Processing of a single index expression inside `handle_indexed`
(unfolding of one step of `handleIdxList`). -/
def handleIndex (i : SExpr) : List Dimension :=
  match split_affine i with
  | some d => [d]
  | none =>
      let nested := nestedDims i
      if nested.isEmpty then filter_sorted (freeDims i) else nested

/-- An argument of a composite relation element (`i.args` in
`order_relations`): a dimension, an integer, or some other symbol. -/
inductive CompArg where
  | cdim (d : Dimension)
  | cint (n : Int)
  | csym (s : String)
deriving DecidableEq, Repr

/-- An element of a relation tuple handled by `order_relations`: either a
`Dimension`, or a composite object carrying an argument list (such as the
subdomain-ordering object `expr._subdomain.indices`; a bare Dimension is a
sympy Symbol, whose `args` is empty). -/
inductive RElem where
  | dim (d : Dimension)
  | comp (args : List CompArg)
deriving DecidableEq, Repr

/-- The dimensions among the arguments of a composite element
(`[d for d in i.args if isinstance(d, Dimension)]`). -/
def compDims (args : List CompArg) : List Dimension :=
  args.filterMap fun a => match a with | .cdim d => some d | _ => none

/-- Errors of the dimension-sort pipeline.  `multipleDims` is the
`ValueError` raised by `order_relations` ("More than one dim"), the
spec's `MultipleDimensionsError`; `indexError` is the uncaught Python
`IndexError` from reading `dim[0]` when a composite element carries no
dimension; `emptyPop` is the `KeyError` of `relations.pop()` on an empty
set; `cycle` is the resolver's `CycleDetected`. -/
inductive SortErr where
  | multipleDims
  | indexError
  | emptyPop
  | cycle
deriving DecidableEq, Repr

/-- Decidable equality of `Except` results, so that concrete runs of the
pipeline can be checked by `decide`. -/
instance instDecEqExcept {ε α : Type} [DecidableEq ε] [DecidableEq α] :
    DecidableEq (Except ε α) := fun a b =>
  match a, b with
  | .ok x, .ok y =>
      if h : x = y then isTrue (by rw [h]) else isFalse fun hc => h (Except.ok.inj hc)
  | .error x, .error y =>
      if h : x = y then isTrue (by rw [h]) else isFalse fun hc => h (Except.error.inj hc)
  | .ok _, .error _ => isFalse fun hc => Except.noConfusion hc
  | .error _, .ok _ => isFalse fun hc => Except.noConfusion hc

/-- Loop of `order_relations` (lines 36-53 of `algorithms.py`) with its
two accumulators `ordered_ns` and `ordered_sp`; at the end the two
buckets are concatenated. -/
def orderGo : List RElem → List RElem → List RElem → Except SortErr (List RElem)
  | [], ns, sp => .ok (ns ++ sp)
  | .dim d :: rest, ns, sp =>
      if d.is_Space then orderGo rest ns (sp ++ [.dim d])
      else orderGo rest (ns ++ [.dim d]) sp
  | .comp args :: rest, ns, sp =>
      if args.isEmpty then orderGo rest ns sp
      else
        let dim := compDims args
        if dim.length > 1 then .error .multipleDims
        else
          match dim with
          | [] => .error .indexError
          | d0 :: _ =>
              if d0.is_Space then orderGo rest ns (sp ++ [.comp args])
              else orderGo rest (ns ++ [.comp args]) sp

/-- Translation of `order_relations` (lines 35-54 of `algorithms.py`):
dispatch every element of the tuple to the NonSpace or Space bucket —
a composite element is classified by the first dimension found among its
arguments — and return NonSpace bucket followed by Space bucket. -/
def order_relations (unordered : List RElem) : Except SortErr (List RElem) :=
  orderGo unordered [] []

/-- All indexed accesses of an equation
(`retrieve_indexed(expr, mode='all')`, line 56; the same list is produced
by `retrieve_indexed(expr, deep=True)`, line 70). -/
def retrieveAllE (e : Eqn) : List SExpr :=
  retrieveDeep e.lhs ++ retrieveDeep e.rhs

/-- The deduplicated set of extracted relations,
`{handle_indexed(i) for i in retrieve_indexed(expr, mode='all')}`
(line 56); the Python set is modelled as a first-occurrence-deduplicated
list. -/
def extractedRelations (e : Eqn) : List (List Dimension) :=
  ((retrieveAllE e).map handle_indexed).dedup

/-- Lines 58-63 of `algorithms.py`: if the equation carries a (nonempty)
Subdomain Ordering, pop one surviving relation, append the subdomain
object as one composite element, and replace the relation set with the
single combined relation produced by `order_relations`; `relations.pop()`
on a set is modelled as taking the head of the deduplicated list. -/
def classifyRelations (e : Eqn) : Except SortErr (List (List RElem)) :=
  let rels0 := extractedRelations e
  let ext := e.subdomain.getD []
  if ext.isEmpty then .ok (rels0.map (fun r => r.map RElem.dim))
  else
    match rels0 with
    | [] => .error .emptyPop
    | r :: _ =>
        (order_relations (r.map RElem.dim ++ [RElem.comp (ext.map CompArg.cdim)])).map
          (fun c => [c])

/-- Lines 65-74 of `algorithms.py`: leftover free dimensions plus the
declared index dimensions of every accessed function, deduplicated and
sorted by name (`filter_sorted(extra, key=attrgetter('name'))`). -/
def extraOf (e : Eqn) : List Dimension :=
  let frees := freeDims e.lhs ++ freeDims e.rhs
  let funcIdx :=
    ((retrieveAllE e).map fun a =>
      match a with
      | .indexed f _ => f.indices
      | _ => []).flatten
  filter_sorted (frees ++ funcIdx)

/-- Line 82 of `algorithms.py`: the implicit relation `(d.parent, d)` for
every derived dimension in `extra`. -/
def parentRels (extra : List Dimension) : List (List RElem) :=
  (extra.filter Dimension.is_Derived).map fun d => [RElem.dim d.parentD, RElem.dim d]

/-- Line 87 of `algorithms.py`: `d.root` applied to every element of a
relation.  On a composite element (possible only for the combined
subdomain relation) the element is kept unchanged, following the spec's
"relation over the `root()` of each dimension in that tuple". -/
def rootElem : RElem → RElem
  | .dim d => .dim d.root
  | .comp args => .comp args

/-- The full relation set handed to the Partial-Order Resolver (line 89):
classified relations together with the implicit parent relations and the
root-image of every relation, deduplicated (Python set union). -/
def allRelations (e : Eqn) : Except SortErr (List (List RElem)) :=
  match classifyRelations e with
  | .error err => .error err
  | .ok rels =>
      .ok ((rels ++ (parentRels (extraOf e) ++ rels.map (List.map rootElem))).dedup)

/-- Deterministic sort key of a vertex, used for the resolver's secondary
tie-break ("declared/insertion order of `elements`, then name"). -/
def sortKey : RElem → String
  | .dim d => d.name
  | .comp args => String.intercalate "," ((compDims args).map Dimension.name)

/-- Whether `b` immediately follows `a` somewhere in the relation `r`. -/
def adjPair : List RElem → RElem → RElem → Bool
  | x :: y :: rest, a, b => (decide (x = a) && decide (y = b)) || adjPair (y :: rest) a b
  | _, _, _ => false

/-- Whether some relation orders `a` immediately before `b` (the edge set
of the induced precedence graph). -/
def hasEdge (rels : List (List RElem)) (a b : RElem) : Bool :=
  rels.any fun r => adjPair r a b

/-- Modelled from the spec: the vertex set of the resolver's graph —
`elements` followed by every dimension mentioned in a relation but not
declared, the latter ordered by the deterministic secondary key
(`PartialOrderTuple` from `devito.tools` is not among the sampled source
files). -/
def verts (elements : List RElem) (rels : List (List RElem)) : List RElem :=
  let base := elements.dedup
  base ++
    List.insertionSort (fun a b => strLe (sortKey a) (sortKey b) = true)
      ((rels.flatten.filter (fun v => ¬ v ∈ base)).dedup)

/-- Kahn step: the first remaining vertex with no precedence constraint
from another remaining vertex (self-loops are ignored, as the toposort
utility ignores self-dependencies). -/
def pickNext (edge : RElem → RElem → Bool) (rem : List RElem) : Option RElem :=
  rem.find? fun v => rem.all fun u => decide (u = v) || ! edge u v

/-- Modelled from the spec: Kahn's algorithm with the deterministic
tie-break given by the order of the remaining-vertex list; returns `none`
on a cycle. -/
def kahn (edge : RElem → RElem → Bool) : Nat → List RElem → Option (List RElem)
  | _, [] => some []
  | 0, _ :: _ => none
  | fuel + 1, v0 :: rem =>
      match pickNext edge (v0 :: rem) with
      | none => none
      | some v => (kahn edge fuel ((v0 :: rem).erase v)).map (v :: ·)

/-- Modelled from the spec: the Partial-Order Resolver
(`PartialOrderTuple(extra, relations=...)`, line 89) — one deterministic
total order of the vertex set consistent with all relations, or `none` if
the relations contain a cycle. -/
def resolve (elements : List RElem) (rels : List (List RElem)) : Option (List RElem) :=
  let vs := verts elements rels
  kahn (hasEdge rels) vs.length vs

/-- Translation of `dimension_sort` (lines 10-91 of `algorithms.py`). -/
def dimension_sort (e : Eqn) : Except SortErr (List RElem) :=
  match allRelations e with
  | .error err => .error err
  | .ok rels =>
      match resolve ((extraOf e).map RElem.dim) rels with
      | some o => .ok o
      | none => .error .cycle

/-- Position of an element in a list (first occurrence; length if absent). -/
def idxOf (a : RElem) : List RElem → Nat
  | [] => 0
  | b :: t => if b = a then 0 else idxOf a t + 1

/-- The output sequence places `a` strictly before `b`. -/
def before (l : List RElem) (a b : RElem) : Prop :=
  a ∈ l ∧ b ∈ l ∧ idxOf a l < idxOf b l

instance (l : List RElem) (a b : RElem) : Decidable (before l a b) := by
  unfold before; infer_instance

/-- A Stencil (`devito/stencil.py`): an insertion-ordered mapping from
Dimension to the set of integer offsets used with it.  The
`DefaultOrderedDict` base class is modelled as an association list with
first-encounter key order; the offset set is a `Finset`. -/
abbrev Stencil := List (Dimension × Finset Int)

/-- Raw lookup of a key (`dict.get` without the default). -/
def lookupS : Stencil → Dimension → Option (Finset Int)
  | [], _ => none
  | (k, v) :: t, d => if k = d then some v else lookupS t d

/-- The keys of a Stencil, in insertion order. -/
def keysS (s : Stencil) : List Dimension := s.map Prod.fst

/-- The single mutation used by `stencil.py`: `stencil[d].update(ofs)` and
`output[k] |= v` — union `ofs` into the set stored at `d`, inserting the
key at the end with exactly `ofs` when absent (the `DefaultOrderedDict`
default factory produces an empty set). -/
def updateD : Stencil → Dimension → Finset Int → Stencil
  | [], d, ofs => [(d, ofs)]
  | (k, v) :: t, d, ofs =>
      if k = d then (k, v ∪ ofs) :: t else (k, v) :: updateD t d ofs

/-- Argument list of a sympy expression as read by `Stencil.extract`
(`a.args`; for an indexed access the base label is never a dimension or
an integer, so only the indices matter). -/
def SExpr.argsOf : SExpr → List SExpr
  | .add a b => [a, b]
  | .mul a b => [a, b]
  | .indexed _ idxs => idxs
  | _ => []

/-- Scan of the argument list in `Stencil.extract` (lines 67-73 of
`stencil.py`): remember the last Dimension argument and collect every
integer-literal argument. -/
def scanArgs (l : List SExpr) : Option Dimension × List Int :=
  l.foldl
    (fun acc i =>
      match i with
      | .dim d => (some d, acc.2)
      | .int n => (acc.1, acc.2 ++ [n])
      | _ => acc)
    (none, [])

/-- Processing of one index expression of one access (lines 64-75 of
`stencil.py`): a bare dimension registers offset 0; then a single
dimension among the arguments registers every integer argument. -/
def procIndex (s : Stencil) (a : SExpr) : Stencil :=
  let s1 := match a with
    | .dim d => updateD s d {0}
    | _ => s
  match scanArgs a.argsOf with
  | (some d, off) => updateD s1 d off.toFinset
  | (none, _) => s1

/-- The index expressions of an access (empty on non-accesses). -/
def indicesOf : SExpr → List SExpr
  | .indexed _ idxs => idxs
  | _ => []

/-- Processing of one indexed access (`for a in e.indices`). -/
def procAccess (s : Stencil) (acc : SExpr) : Stencil :=
  (indicesOf acc).foldl procIndex s

/-- Lines 60-62 of `stencil.py`: the accesses of both sides plus, for each
of them, the accesses nested in their index expressions (with the deep
retrieval this adds only duplicates, which are harmless). -/
def extractAccesses (e : Eqn) : List SExpr :=
  let ind := retrieveDeep e.lhs ++ retrieveDeep e.rhs
  ind ++ (ind.map fun a => retrieveDeepL (indicesOf a)).flatten

/-- Translation of `Stencil.extract` (lines 51-76 of `stencil.py`). -/
def Stencil.extract (e : Eqn) : Stencil :=
  (extractAccesses e).foldl procAccess []

/-- Inner loop of `Stencil.union`: fold the entries of `t` into `s`
(`for k, v in i.items(): output[k] |= v`). -/
def mergeS (s t : Stencil) : Stencil :=
  t.foldl (fun acc kv => updateD acc kv.1 kv.2) s

/-- Translation of `Stencil.union` (lines 78-87 of `stencil.py`),
variadic over a list of stencils. -/
def Stencil.union (ds : List Stencil) : Stencil :=
  ds.foldl mergeS []

/-- Translation of `Stencil.get` (lines 113-115 of `stencil.py`): a
missing dimension yields the singleton `{0}`. -/
def Stencil.get (s : Stencil) (d : Dimension) : Finset Int :=
  (lookupS s d).getD {0}

/-- Assignment `output[k] = v` on the ordered mapping: replace in place,
or insert at the end when absent. -/
def setItemD : Stencil → Dimension → Finset Int → Stencil
  | [], d, v => [(d, v)]
  | (k, w) :: t, d, v => if k = d then (k, v) :: t else (k, w) :: setItemD t d v

/-- Translation of `Stencil.subtract` (lines 101-111 of `stencil.py`):
`output[k] = v`, then `output[k] -= o[k]` when `k` is present in `o`. -/
def Stencil.subtract (s o : Stencil) : Stencil :=
  s.foldl
    (fun acc kv =>
      match lookupS o kv.1 with
      | some w => setItemD acc kv.1 (kv.2 \ w)
      | none => setItemD acc kv.1 kv.2)
    []

/-- A dimension `d` appears bare — as a whole index expression, with no
offset — in some indexed access visited by `Stencil.extract`. -/
def appearsBareB (e : Eqn) (d : Dimension) : Bool :=
  (extractAccesses e).any fun a =>
    (indicesOf a).any fun i =>
      match i with
      | .dim d2 => decide (d2 = d)
      | _ => false

/-- Whether `order_relations` keeps an element at all (a composite with an
empty argument list is silently dropped). -/
def keepB : RElem → Bool
  | .dim _ => true
  | .comp args => !args.isEmpty

/-- Classification of a kept element as Space: a dimension by its own
kind, a composite by the kind of the first dimension among its arguments. -/
def spaceB : RElem → Bool
  | .dim d => d.is_Space
  | .comp args =>
      match compDims args with
      | d0 :: _ => d0.is_Space
      | [] => false

mutual

/-- Spec-worded Relation Extractor (§4.2 of the spec), used to compare the
source's `handle_indexed` against the specification: on `NotAffine` the
spec falls back to the free-symbol scan only when the index expression
contains *no* nested indexed access at all. -/
def specNested : SExpr → List Dimension
  | .dim _ => []
  | .int _ => []
  | .sym _ => []
  | .add a b => specNested a ++ specNested b
  | .mul a b => specNested a ++ specNested b
  | .indexed _ idxs => specIdxList idxs
termination_by structural e => e

/-- Spec-worded extraction over the index list of an access. -/
def specIdxList : List SExpr → List Dimension
  | [] => []
  | i :: t =>
      (match split_affine i with
        | some d => [d]
        | none =>
            if (retrieveOuter i).isEmpty then filter_sorted (freeDims i)
            else specNested i)
      ++ specIdxList t
termination_by structural l => l

end

/-- Spec-worded Relation Extractor at the access level. -/
def specRelationExtract : SExpr → List Dimension
  | .indexed _ idxs => specIdxList idxs
  | _ => []

/-- Concrete NonSpace dimension `time` used by witnesses. -/
def dimTime : Dimension := .base "time" false

/-- Concrete Space dimension `x` used by witnesses. -/
def dimX : Dimension := .base "x" true

/-- Concrete Space dimension `y` used by witnesses. -/
def dimY : Dimension := .base "y" true

/-- Concrete derived dimension `xi` with parent `x`. -/
def dimXi : Dimension := .derived "xi" true dimX

/-- Time-buffered equation of the spec's concrete subdomain scenario:
`u[time, x]` with Subdomain Ordering `S = (x,)`. -/
def eqnSub : Eqn :=
  { lhs := .indexed ⟨"u", [dimTime, dimX]⟩ [.dim dimTime, .dim dimX]
    rhs := .int 0
    subdomain := some [dimX] }

/-- Equation whose sole access repeats a dimension: `f[x, x] = 0`. -/
def eqnRep : Eqn :=
  { lhs := .indexed ⟨"f", [dimX]⟩ [.dim dimX, .dim dimX]
    rhs := .int 0 }

/-- Equation with two distinct surviving relations and a Subdomain
Ordering: `g1[x] = g2[y]` with `S = (x,)`. -/
def eqnTwo : Eqn :=
  { lhs := .indexed ⟨"g1", [dimX]⟩ [.dim dimX]
    rhs := .indexed ⟨"g2", [dimY]⟩ [.dim dimY]
    subdomain := some [dimX] }

/-- Access whose index expression contains a nested dimension-free access
next to a free dimension: `f[g[3] + x]`. -/
def accNest : SExpr :=
  .indexed ⟨"f", [dimX]⟩ [.add (.indexed ⟨"g", [dimX]⟩ [.int 3]) (.dim dimX)]

/-- Equation `h[xi] = time` with a derived dimension. -/
def eqnDer : Eqn :=
  { lhs := .indexed ⟨"h", [dimXi]⟩ [.dim dimXi]
    rhs := .dim dimTime }

/-- Equation of the spec's first concrete scenario:
`f[x, y] = g[x + 1, y - 2]`. -/
def eqnGrid : Eqn :=
  { lhs := .indexed ⟨"f", [dimX, dimY]⟩ [.dim dimX, .dim dimY]
    rhs := .indexed ⟨"g", [dimX, dimY]⟩
      [.add (.dim dimX) (.int 1), .add (.dim dimY) (.int (-2))] }

/-- Concrete one-key stencils used by the union counterexample. -/
def stX : Stencil := [(dimX, ({1} : Finset Int))]

/-- Second concrete stencil for the union counterexample. -/
def stY : Stencil := [(dimY, ({2} : Finset Int))]

end Devito

namespace Devito

theorem handleIdxList_cons (i : SExpr) (t : List SExpr) :
    handleIdxList (i :: t) = handleIndex i ++ handleIdxList t := rfl

theorem compDims_map_cdim (S : List Dimension) : compDims (S.map CompArg.cdim) = S := by
  induction S with
  | nil => rfl
  | cons d t ih => simpa [compDims, List.filterMap_cons] using ih

theorem orderGo_buckets (u : List RElem) :
    ∀ ns sp : List RElem,
    (∀ args, RElem.comp args ∈ u → args ≠ [] → (compDims args).length = 1) →
    orderGo u ns sp =
      .ok ((ns ++ u.filter fun i => keepB i && !spaceB i) ++
           (sp ++ u.filter fun i => keepB i && spaceB i)) := by
  induction u with
  | nil => intro ns sp _; simp [orderGo]
  | cons i rest ih =>
    intro ns sp h
    have hrest : ∀ args, RElem.comp args ∈ rest → args ≠ [] → (compDims args).length = 1 :=
      fun args hm hne => h args (List.mem_cons_of_mem _ hm) hne
    cases i with
    | dim d =>
      by_cases hs : d.is_Space
      · rw [show orderGo (RElem.dim d :: rest) ns sp = orderGo rest ns (sp ++ [.dim d]) by
          simp [orderGo, hs]]
        rw [ih _ _ hrest]
        simp [keepB, spaceB, hs, List.filter_cons, List.append_assoc]
      · rw [show orderGo (RElem.dim d :: rest) ns sp = orderGo rest (ns ++ [.dim d]) sp by
          simp [orderGo, hs]]
        rw [ih _ _ hrest]
        simp [keepB, spaceB, hs, List.filter_cons, List.append_assoc]
    | comp args =>
      by_cases hE : args.isEmpty
      · rw [show orderGo (RElem.comp args :: rest) ns sp = orderGo rest ns sp by
          simp [orderGo, hE]]
        rw [ih _ _ hrest]
        simp [keepB, hE, List.filter_cons]
      · have hne : args ≠ [] := fun hc => hE (by simp [hc])
        have hlen := h args (List.mem_cons_self _ _) hne
        obtain ⟨d0, hd0⟩ := List.length_eq_one.mp hlen
        by_cases hs : d0.is_Space
        · rw [show orderGo (RElem.comp args :: rest) ns sp
              = orderGo rest ns (sp ++ [.comp args]) by
            simp [orderGo, hE, hd0, hs]]
          rw [ih _ _ hrest]
          simp [keepB, spaceB, hE, hd0, hs, List.filter_cons, List.append_assoc]
        · rw [show orderGo (RElem.comp args :: rest) ns sp
              = orderGo rest (ns ++ [.comp args]) sp by
            simp [orderGo, hE, hd0, hs]]
          rw [ih _ _ hrest]
          simp [keepB, spaceB, hE, hd0, hs, List.filter_cons, List.append_assoc]

theorem orderGo_multi_iff (u : List RElem) :
    ∀ ns sp : List RElem,
    (∀ args, RElem.comp args ∈ u → args ≠ [] → compDims args ≠ []) →
    (orderGo u ns sp = .error .multipleDims ↔
      ∃ args, RElem.comp args ∈ u ∧ 2 ≤ (compDims args).length) := by
  induction u with
  | nil =>
    intro ns sp _
    simp [orderGo]
  | cons i rest ih =>
    intro ns sp h
    have hrest : ∀ args, RElem.comp args ∈ rest → args ≠ [] → compDims args ≠ [] :=
      fun args hm hne => h args (List.mem_cons_of_mem _ hm) hne
    cases i with
    | dim d =>
      by_cases hs : d.is_Space <;>
        simp [orderGo, hs, ih _ _ hrest]
    | comp args =>
      by_cases hE : args.isEmpty
      · have hz : compDims args = [] := by
          cases args with
          | nil => rfl
          | cons a t => simp at hE
        rw [show orderGo (RElem.comp args :: rest) ns sp = orderGo rest ns sp by
          simp [orderGo, hE]]
        rw [ih _ _ hrest]
        constructor
        · rintro ⟨a2, hm, hl⟩; exact ⟨a2, List.mem_cons_of_mem _ hm, hl⟩
        · rintro ⟨a2, hm, hl⟩
          rcases List.mem_cons.mp hm with hc | hm2
          · exfalso
            have : a2 = args := by injection hc
            subst this
            rw [hz] at hl
            simp at hl
          · exact ⟨a2, hm2, hl⟩
      · have hne : args ≠ [] := fun hc => hE (by simp [hc])
        have hdne := h args (List.mem_cons_self _ _) hne
        by_cases hlen : (compDims args).length > 1
        · rw [show orderGo (RElem.comp args :: rest) ns sp = .error .multipleDims by
            simp [orderGo, hE, hlen]]
          constructor
          · intro _; exact ⟨args, List.mem_cons_self _ _, hlen⟩
          · intro _; rfl
        · have h1 : (compDims args).length = 1 := by
            have : (compDims args).length ≠ 0 := by
              simpa [List.length_eq_zero] using hdne
            omega
          obtain ⟨d0, hd0⟩ := List.length_eq_one.mp h1
          by_cases hs : d0.is_Space
          · rw [show orderGo (RElem.comp args :: rest) ns sp
                = orderGo rest ns (sp ++ [.comp args]) by
              simp [orderGo, hE, hd0, hs]]
            rw [ih _ _ hrest]
            constructor
            · rintro ⟨a2, hm, hl⟩; exact ⟨a2, List.mem_cons_of_mem _ hm, hl⟩
            · rintro ⟨a2, hm, hl⟩
              rcases List.mem_cons.mp hm with hc | hm2
              · exfalso
                have : a2 = args := by injection hc
                subst this
                rw [hd0] at hl
                simp at hl
              · exact ⟨a2, hm2, hl⟩
          · rw [show orderGo (RElem.comp args :: rest) ns sp
                = orderGo rest (ns ++ [.comp args]) sp by
              simp [orderGo, hE, hd0, hs]]
            rw [ih _ _ hrest]
            constructor
            · rintro ⟨a2, hm, hl⟩; exact ⟨a2, List.mem_cons_of_mem _ hm, hl⟩
            · rintro ⟨a2, hm, hl⟩
              rcases List.mem_cons.mp hm with hc | hm2
              · exfalso
                have : a2 = args := by injection hc
                subst this
                rw [hd0] at hl
                simp at hl
              · exact ⟨a2, hm2, hl⟩

theorem orderGo_indexError (u : List RElem) :
    ∀ ns sp : List RElem,
    (∀ args, RElem.comp args ∈ u → (compDims args).length ≤ 1) →
    (∃ args, RElem.comp args ∈ u ∧ args ≠ [] ∧ compDims args = []) →
    orderGo u ns sp = .error .indexError := by
  induction u with
  | nil =>
    rintro ns sp _ ⟨args, hm, _⟩
    simp at hm
  | cons i rest ih =>
    rintro ns sp h1 ⟨args, hm, hne, hz⟩
    have h1rest : ∀ args, RElem.comp args ∈ rest → (compDims args).length ≤ 1 :=
      fun a hm2 => h1 a (List.mem_cons_of_mem _ hm2)
    cases i with
    | dim d =>
      have hm2 : RElem.comp args ∈ rest := by
        rcases List.mem_cons.mp hm with hc | hm2
        · exact absurd hc (by simp)
        · exact hm2
      by_cases hs : d.is_Space <;>
        simp [orderGo, hs, ih _ _ h1rest ⟨args, hm2, hne, hz⟩]
    | comp args1 =>
      rcases List.mem_cons.mp hm with hc | hm2
      · have hargs : args1 = args := by injection hc.symm
        subst hargs
        have hE : ¬ args1.isEmpty := by
          cases args1 with
          | nil => exact absurd rfl hne
          | cons a t => simp
        simp [orderGo, hE, hz]
      · by_cases hE : args1.isEmpty
        · simp [orderGo, hE, ih _ _ h1rest ⟨args, hm2, hne, hz⟩]
        · have hle := h1 args1 (List.mem_cons_self _ _)
          cases hdd : compDims args1 with
          | nil => simp [orderGo, hE, hdd]
          | cons d0 rest2 =>
            have hr2 : rest2 = [] := by
              rw [hdd] at hle
              cases rest2 with
              | nil => rfl
              | cons b t => simp at hle
            subst hr2
            by_cases hs : d0.is_Space <;>
              simp [orderGo, hE, hdd, hs, ih _ _ h1rest ⟨args, hm2, hne, hz⟩]

/-- C1 (counterexample): in the spec's concrete scenario — extraction
`(time, x)` with NonSpace `time`, Space `x`, and Subdomain Ordering
`S = (x,)` — the combined relation built by `dimension_sort` is
`(time, x, S)`: the subdomain object `S` is appended *after* the Space
dimensions (it is classified as Space itself), not between the NonSpace
and Space blocks, and the result is not `(time, x)` either. -/
theorem c1_counterexample :
    classifyRelations eqnSub =
      .ok [[RElem.dim dimTime, RElem.dim dimX, RElem.comp [CompArg.cdim dimX]]] ∧
    [RElem.dim dimTime, RElem.dim dimX, RElem.comp [CompArg.cdim dimX]] ≠
      [RElem.dim dimTime, RElem.comp [CompArg.cdim dimX], RElem.dim dimX] ∧
    [RElem.dim dimTime, RElem.dim dimX, RElem.comp [CompArg.cdim dimX]] ≠
      [RElem.dim dimTime, RElem.dim dimX] := by
  refine ⟨by decide, by decide, by decide⟩

/-- C1 (amended): for an equation carrying a Subdomain Ordering `S`
(necessarily with a single dimension, else `order_relations` errors)
whose extracted relation set reduces to the single relation `r`,
`dimension_sort` rebuilds the combined relation by classifying every
element of `r ++ (S,)` — `S` by the kind of its first dimension — and
emitting the NonSpace-classified elements in original relative order
followed by the Space-classified elements in original relative order;
`S` sits between the two blocks only when it is classified NonSpace. -/
theorem c1_combined_relation (e : Eqn) (S : List Dimension) (r : List Dimension)
    (hS : e.subdomain = some S) (hS1 : S.length = 1)
    (hr : extractedRelations e = [r]) :
    classifyRelations e =
      .ok [((r.map RElem.dim ++ [RElem.comp (S.map CompArg.cdim)]).filter
              fun i => keepB i && !spaceB i) ++
           ((r.map RElem.dim ++ [RElem.comp (S.map CompArg.cdim)]).filter
              fun i => keepB i && spaceB i)] := by
  have hSne : S.isEmpty = false := by
    cases S with
    | nil => simp at hS1
    | cons a t => rfl
  unfold classifyRelations
  rw [hr, hS]
  simp only [Option.getD_some, hSne, Bool.false_eq_true, if_false]
  unfold order_relations
  rw [orderGo_buckets]
  · rfl
  · intro args hm hne
    rcases List.mem_append.mp hm with hml | hmr
    · exfalso
      rcases List.mem_map.mp hml with ⟨d, _, hc⟩
      exact absurd hc (by simp)
    · have hc := List.mem_singleton.mp hmr
      injection hc with h2
      subst h2
      rw [compDims_map_cdim]
      exact hS1

/-- C1 (witness): the amended characterization applied to the concrete
time-buffered scenario. -/
theorem c1_witness :
    extractedRelations eqnSub = [[dimTime, dimX]] ∧
    classifyRelations eqnSub =
      .ok [[RElem.dim dimTime, RElem.dim dimX, RElem.comp [CompArg.cdim dimX]]] := by
  constructor
  · decide
  · have h := c1_combined_relation eqnSub [dimX] [dimTime, dimX] rfl rfl (by decide)
    rw [h]
    decide

/-- C5 (counterexample): when two distinct relations survive
deduplication and a Subdomain Ordering is present, `dimension_sort` does
*not* signal `MultipleDimensionsError`: one relation is popped
arbitrarily, the rest are discarded, and the sort succeeds. -/
theorem c5_counterexample :
    (extractedRelations eqnTwo).length = 2 ∧
    dimension_sort eqnTwo =
      .ok [RElem.dim dimX, RElem.dim dimY, RElem.comp [CompArg.cdim dimX]] := by
  refine ⟨by decide, by decide⟩

/-- C5 (amended): provided no element of the combined tuple has a
nonempty argument list devoid of dimensions (which would instead abort
with an `IndexError`, see C10), the classification step signals
`MultipleDimensionsError` exactly when some element of the combined
relation tuple contains more than one directly-associated Dimension;
the number of distinct relations surviving deduplication never triggers
the error — one surviving relation is picked arbitrarily. -/
theorem c5_multipleDims_iff (u : List RElem)
    (h : ∀ args, RElem.comp args ∈ u → args ≠ [] → compDims args ≠ []) :
    (order_relations u = .error .multipleDims ↔
      ∃ args, RElem.comp args ∈ u ∧ 2 ≤ (compDims args).length) :=
  orderGo_multi_iff u [] [] h

/-- C5 (witness): a combined tuple whose composite element carries two
dimensions does raise `MultipleDimensionsError`. -/
theorem c5_witness :
    order_relations [RElem.dim dimX, RElem.comp [CompArg.cdim dimX, CompArg.cdim dimY]]
      = .error .multipleDims :=
  (c5_multipleDims_iff _ (by
    intro args hm hne
    simp at hm
    subst hm
    decide)).mpr
    ⟨[CompArg.cdim dimX, CompArg.cdim dimY], by decide, by decide⟩

/-- C10: during subdomain-ordering classification, an element whose
nonempty argument list contains no Dimension at all makes
`order_relations` fail with the uncaught indexing error (`dim[0]` on an
empty list), which is distinct from the documented
`MultipleDimensionsError`; the hypothesis that no element carries two or
more dimensions rules the latter out. -/
theorem c10_indexError (u : List RElem)
    (h1 : ∀ args, RElem.comp args ∈ u → (compDims args).length ≤ 1)
    (h2 : ∃ args, RElem.comp args ∈ u ∧ args ≠ [] ∧ compDims args = []) :
    order_relations u = .error .indexError ∧
    order_relations u ≠ .error .multipleDims := by
  have h := orderGo_indexError u [] [] h1 h2
  refine ⟨h, ?_⟩
  rw [show order_relations u = orderGo u [] [] from rfl, h]
  simp

/-- C10 (witness): a composite element with a single non-dimension
argument trips the indexing error. -/
theorem c10_witness :
    order_relations [RElem.comp [CompArg.csym "s"]] = .error .indexError ∧
    order_relations [RElem.comp [CompArg.csym "s"]] ≠ .error .multipleDims :=
  c10_indexError _
    (by
      intro args hm
      simp at hm
      subst hm
      decide)
    ⟨[CompArg.csym "s"], by decide, by decide, by decide⟩

theorem lookupS_eq_none_of_not_mem_keys (s : Stencil) (d : Dimension)
    (h : ¬ d ∈ keysS s) : lookupS s d = none := by
  induction s with
  | nil => rfl
  | cons kv t ih =>
    have hk : ¬ kv.1 = d := fun hc => h (by simp [keysS, hc])
    have ht : ¬ d ∈ keysS t := fun hc => h (by simp [keysS] at hc ⊢; exact Or.inr hc)
    cases kv with
    | mk k v => simpa [lookupS, hk] using ih ht

/-- C9: querying a Stencil for a dimension not present among its keys
returns the singleton `{0}` — zero offset is the implicit default, never
absence. -/
theorem c9_default_lookup (s : Stencil) (d : Dimension) (h : ¬ d ∈ keysS s) :
    Stencil.get s d = {0} := by
  rw [Stencil.get, lookupS_eq_none_of_not_mem_keys s d h]
  rfl

/-- C9 (witness): default lookup on a concrete stencil. -/
theorem c9_witness :
    ¬ dimY ∈ keysS stX ∧ Stencil.get stX dimY = {0} :=
  ⟨by decide, c9_default_lookup stX dimY (by decide)⟩

theorem nestedDims_eq_retrieveOuter :
    ∀ i : SExpr, nestedDims i = ((retrieveOuter i).map handle_indexed).flatten
  | .dim _ => rfl
  | .int _ => rfl
  | .sym _ => rfl
  | .add a b => by
      rw [show nestedDims (.add a b) = nestedDims a ++ nestedDims b from rfl,
        nestedDims_eq_retrieveOuter a, nestedDims_eq_retrieveOuter b]
      simp [retrieveOuter]
  | .mul a b => by
      rw [show nestedDims (.mul a b) = nestedDims a ++ nestedDims b from rfl,
        nestedDims_eq_retrieveOuter a, nestedDims_eq_retrieveOuter b]
      simp [retrieveOuter]
  | .indexed f idxs => by
      simp [nestedDims, retrieveOuter, handle_indexed]
termination_by structural i => i

/-- C6 (counterexample): for the access `f[g[3] + x]` the index
expression is non-affine and contains a nested access, so per the spec's
step 2/3 the extractor should append only the (zero) dimensions
discovered in `g[3]`; the source instead tests whether the *extracted
dimension list* is empty and falls back to the free-symbol scan,
yielding `[x]`. -/
theorem c6_counterexample :
    handle_indexed accNest = [dimX] ∧ specRelationExtract accNest = [] :=
  ⟨by decide, by decide⟩

/-- C6 (amended): for every indexed access, each index expression is
processed as follows — if it decomposes as one Dimension plus an optional
integer literal, that dimension is appended; otherwise the relations of
the nested indexed accesses are extracted recursively, and the sorted
free-symbol dimensions are appended exactly when that recursive
extraction yields *no dimensions* (not merely when no nested access
exists). -/
theorem c6_handle_indexed_amended (f : DFunction) (idxs : List SExpr) :
    handle_indexed (SExpr.indexed f idxs) =
      (idxs.map fun i =>
        match split_affine i with
        | some d => [d]
        | none =>
            let nested := ((retrieveOuter i).map handle_indexed).flatten
            if nested.isEmpty then filter_sorted (freeDims i) else nested).flatten := by
  show handleIdxList idxs = _
  induction idxs with
  | nil => rfl
  | cons i t ih =>
    rw [handleIdxList_cons, List.map_cons, List.flatten_cons, ih]
    congr 1
    unfold handleIndex
    cases h : split_affine i with
    | some d => rfl
    | none => simp only [nestedDims_eq_retrieveOuter i]

theorem mem_filter_sorted {d : Dimension} {l : List Dimension} :
    d ∈ filter_sorted l ↔ d ∈ l := by
  unfold filter_sorted
  rw [(List.perm_insertionSort _ _).mem_iff, List.mem_dedup]

theorem split_affine_mem (i : SExpr) (d : Dimension) (h : split_affine i = some d) :
    d ∈ freeDims i := by
  unfold split_affine at h
  split at h <;> first
    | (injection h with h0; subst h0; simp [freeDims, freeDimsL])
    | exact absurd h (by simp)

mutual

theorem nestedDims_subset : ∀ (i : SExpr), ∀ d ∈ nestedDims i, d ∈ freeDims i
  | .dim _ => by simp [nestedDims]
  | .int _ => by simp [nestedDims]
  | .sym _ => by simp [nestedDims]
  | .add a b => by
      intro d hd
      rw [show nestedDims (.add a b) = nestedDims a ++ nestedDims b from rfl] at hd
      rw [show freeDims (.add a b) = freeDims a ++ freeDims b from rfl]
      rcases List.mem_append.mp hd with h | h
      · exact List.mem_append.mpr (Or.inl (nestedDims_subset a d h))
      · exact List.mem_append.mpr (Or.inr (nestedDims_subset b d h))
  | .mul a b => by
      intro d hd
      rw [show nestedDims (.mul a b) = nestedDims a ++ nestedDims b from rfl] at hd
      rw [show freeDims (.mul a b) = freeDims a ++ freeDims b from rfl]
      rcases List.mem_append.mp hd with h | h
      · exact List.mem_append.mpr (Or.inl (nestedDims_subset a d h))
      · exact List.mem_append.mpr (Or.inr (nestedDims_subset b d h))
  | .indexed f idxs => by
      intro d hd
      exact handleIdxList_subset idxs d hd
termination_by structural i => i

theorem handleIdxList_subset : ∀ (l : List SExpr), ∀ d ∈ handleIdxList l, d ∈ freeDimsL l
  | [] => by simp [handleIdxList]
  | i :: t => by
      intro d hd
      rw [handleIdxList_cons] at hd
      rw [show freeDimsL (i :: t) = freeDims i ++ freeDimsL t from rfl]
      rcases List.mem_append.mp hd with h | h
      · refine List.mem_append.mpr (Or.inl ?_)
        unfold handleIndex at h
        cases hs : split_affine i with
        | some d0 =>
            rw [hs] at h
            simp at h
            subst h
            exact split_affine_mem i d hs
        | none =>
            rw [hs] at h
            simp only [] at h
            by_cases hE : (nestedDims i).isEmpty
            · rw [if_pos hE] at h
              exact mem_filter_sorted.mp h
            · rw [if_neg hE] at h
              exact nestedDims_subset i d h
      · exact List.mem_append.mpr (Or.inr (handleIdxList_subset t d h))
termination_by structural l => l

end

mutual

theorem freeDims_retrieveDeep :
    ∀ (x a : SExpr), a ∈ retrieveDeep x → ∀ d ∈ freeDims a, d ∈ freeDims x
  | .dim _ => by simp [retrieveDeep]
  | .int _ => by simp [retrieveDeep]
  | .sym _ => by simp [retrieveDeep]
  | .add p q => by
      intro a ha d hd
      rw [show retrieveDeep (.add p q) = retrieveDeep p ++ retrieveDeep q from rfl] at ha
      rw [show freeDims (.add p q) = freeDims p ++ freeDims q from rfl]
      rcases List.mem_append.mp ha with h | h
      · exact List.mem_append.mpr (Or.inl (freeDims_retrieveDeep p a h d hd))
      · exact List.mem_append.mpr (Or.inr (freeDims_retrieveDeep q a h d hd))
  | .mul p q => by
      intro a ha d hd
      rw [show retrieveDeep (.mul p q) = retrieveDeep p ++ retrieveDeep q from rfl] at ha
      rw [show freeDims (.mul p q) = freeDims p ++ freeDims q from rfl]
      rcases List.mem_append.mp ha with h | h
      · exact List.mem_append.mpr (Or.inl (freeDims_retrieveDeep p a h d hd))
      · exact List.mem_append.mpr (Or.inr (freeDims_retrieveDeep q a h d hd))
  | .indexed f idxs => by
      intro a ha d hd
      rw [show retrieveDeep (.indexed f idxs)
          = SExpr.indexed f idxs :: retrieveDeepL idxs from rfl] at ha
      rcases List.mem_cons.mp ha with h | h
      · subst h; exact hd
      · exact freeDimsL_retrieveDeepL idxs a h d hd
termination_by structural x => x

theorem freeDimsL_retrieveDeepL :
    ∀ (l : List SExpr) (a : SExpr), a ∈ retrieveDeepL l → ∀ d ∈ freeDims a, d ∈ freeDimsL l
  | [] => by simp [retrieveDeepL]
  | e :: t => by
      intro a ha d hd
      rw [show retrieveDeepL (e :: t) = retrieveDeep e ++ retrieveDeepL t from rfl] at ha
      rw [show freeDimsL (e :: t) = freeDims e ++ freeDimsL t from rfl]
      rcases List.mem_append.mp ha with h | h
      · exact List.mem_append.mpr (Or.inl (freeDims_retrieveDeep e a h d hd))
      · exact List.mem_append.mpr (Or.inr (freeDimsL_retrieveDeepL t a h d hd))
termination_by structural l => l

end

theorem extracted_mem_extra (e : Eqn) (r : List Dimension) (hr : r ∈ extractedRelations e)
    (d : Dimension) (hd : d ∈ r) : d ∈ extraOf e := by
  unfold extractedRelations at hr
  rw [List.mem_dedup] at hr
  rcases List.mem_map.mp hr with ⟨a, ha, hface⟩
  subst hface
  have hfa : d ∈ freeDims a := by
    cases a with
    | indexed f idxs => exact handleIdxList_subset idxs d hd
    | dim d2 => simp [handle_indexed] at hd
    | int n => simp [handle_indexed] at hd
    | sym s => simp [handle_indexed] at hd
    | add p q => simp [handle_indexed] at hd
    | mul p q => simp [handle_indexed] at hd
  unfold retrieveAllE at ha
  show d ∈ filter_sorted _
  rw [mem_filter_sorted]
  refine List.mem_append.mpr (Or.inl ?_)
  rcases List.mem_append.mp ha with h | h
  · exact List.mem_append.mpr (Or.inl (freeDims_retrieveDeep e.lhs a h d hfa))
  · exact List.mem_append.mpr (Or.inr (freeDims_retrieveDeep e.rhs a h d hfa))

/-- C4: every derived dimension present in `extra` or appearing in any
extracted relation (the latter are always free symbols of the equation,
hence members of `extra`) contributes the implicit relation
`(parent(d), d)` to the relation set passed to the resolver. -/
theorem c4_parent_relations (e : Eqn) (d : Dimension) (rs : List (List RElem))
    (hok : allRelations e = .ok rs) (hder : d.is_Derived = true)
    (hmem : d ∈ extraOf e ∨ ∃ r ∈ extractedRelations e, d ∈ r) :
    [RElem.dim d.parentD, RElem.dim d] ∈ rs := by
  have hex : d ∈ extraOf e := by
    rcases hmem with h | ⟨r, hr, hd⟩
    · exact h
    · exact extracted_mem_extra e r hr d hd
  unfold allRelations at hok
  cases hc : classifyRelations e with
  | error err => rw [hc] at hok; exact absurd hok (by simp)
  | ok rels0 =>
      rw [hc] at hok
      injection hok with hok2
      subst hok2
      rw [List.mem_dedup]
      refine List.mem_append.mpr (Or.inr (List.mem_append.mpr (Or.inl ?_)))
      unfold parentRels
      exact List.mem_map.mpr ⟨d, List.mem_filter.mpr ⟨hex, hder⟩, rfl⟩

/-- C4 (witness): in `h[xi] = time` with `xi` derived from `x`, the
relation `(x, xi)` is among the relations handed to the resolver. -/
theorem c4_witness :
    allRelations eqnDer =
      .ok [[RElem.dim dimXi], [RElem.dim dimX, RElem.dim dimXi], [RElem.dim dimX]] ∧
    [RElem.dim dimXi.parentD, RElem.dim dimXi] ∈
      [[RElem.dim dimXi], [RElem.dim dimX, RElem.dim dimXi], [RElem.dim dimX]] :=
  ⟨by decide, c4_parent_relations eqnDer dimXi _ (by decide) (by decide) (Or.inl (by decide))⟩

theorem lookupS_updateD_self (s : Stencil) (d : Dimension) (ofs : Finset Int) :
    lookupS (updateD s d ofs) d = some (((lookupS s d).getD ∅) ∪ ofs) := by
  induction s with
  | nil => simp [updateD, lookupS]
  | cons kv t ih =>
    cases kv with
    | mk k v =>
      by_cases hk : k = d
      · subst hk; simp [updateD, lookupS]
      · simp [updateD, lookupS, hk, ih]

theorem lookupS_updateD_other (s : Stencil) (d2 : Dimension) (ofs : Finset Int)
    (d : Dimension) (h : d2 ≠ d) : lookupS (updateD s d2 ofs) d = lookupS s d := by
  induction s with
  | nil => simp [updateD, lookupS, h]
  | cons kv t ih =>
    cases kv with
    | mk k v =>
      by_cases hk : k = d2
      · subst hk; simp [updateD, lookupS, h, ih]
      · simp [updateD, lookupS, hk, ih]

theorem updateD_preserves_zero (s : Stencil) (d2 : Dimension) (ofs : Finset Int)
    (d : Dimension) (h : ∃ v, lookupS s d = some v ∧ (0 : Int) ∈ v) :
    ∃ v2, lookupS (updateD s d2 ofs) d = some v2 ∧ (0 : Int) ∈ v2 := by
  obtain ⟨v, hv, h0⟩ := h
  by_cases hk : d2 = d
  · subst hk
    refine ⟨(lookupS s d2).getD ∅ ∪ ofs, lookupS_updateD_self s d2 ofs, ?_⟩
    rw [hv]
    simp [h0]
  · exact ⟨v, by rw [lookupS_updateD_other s d2 ofs d hk]; exact hv, h0⟩

theorem procIndex_preserves_zero (s : Stencil) (a : SExpr) (d : Dimension)
    (h : ∃ v, lookupS s d = some v ∧ (0 : Int) ∈ v) :
    ∃ v, lookupS (procIndex s a) d = some v ∧ (0 : Int) ∈ v := by
  unfold procIndex
  have h1 : ∃ v, lookupS (match a with
      | .dim d2 => updateD s d2 {0}
      | _ => s) d = some v ∧ (0 : Int) ∈ v := by
    cases a with
    | dim d2 => exact updateD_preserves_zero s d2 {0} d h
    | int n => exact h
    | sym s2 => exact h
    | add p q => exact h
    | mul p q => exact h
    | indexed f idxs => exact h
  cases hsc : scanArgs a.argsOf with
  | mk od off =>
    cases od with
    | some d2 =>
        simp only [hsc]
        exact updateD_preserves_zero _ d2 off.toFinset d h1
    | none =>
        simp only [hsc]
        exact h1

theorem procIndex_bare_zero (s : Stencil) (d : Dimension) :
    ∃ v, lookupS (procIndex s (.dim d)) d = some v ∧ (0 : Int) ∈ v := by
  show ∃ v, lookupS (updateD s d {0}) d = some v ∧ (0 : Int) ∈ v
  exact ⟨(lookupS s d).getD ∅ ∪ {0}, lookupS_updateD_self s d {0}, by simp⟩

theorem foldl_procIndex_preserves (l : List SExpr) (s : Stencil) (d : Dimension)
    (h : ∃ v, lookupS s d = some v ∧ (0 : Int) ∈ v) :
    ∃ v, lookupS (l.foldl procIndex s) d = some v ∧ (0 : Int) ∈ v := by
  induction l generalizing s with
  | nil => exact h
  | cons i t ih => exact ih _ (procIndex_preserves_zero s i d h)

theorem foldl_procIndex_establishes (l : List SExpr) (s : Stencil) (d : Dimension)
    (h : (SExpr.dim d) ∈ l) :
    ∃ v, lookupS (l.foldl procIndex s) d = some v ∧ (0 : Int) ∈ v := by
  induction l generalizing s with
  | nil => simp at h
  | cons i t ih =>
    rcases List.mem_cons.mp h with h1 | h2
    · rw [← h1]
      exact foldl_procIndex_preserves t _ d (procIndex_bare_zero s d)
    · exact ih _ h2

theorem foldl_procAccess_preserves (L : List SExpr) (s : Stencil) (d : Dimension)
    (h : ∃ v, lookupS s d = some v ∧ (0 : Int) ∈ v) :
    ∃ v, lookupS (L.foldl procAccess s) d = some v ∧ (0 : Int) ∈ v := by
  induction L generalizing s with
  | nil => exact h
  | cons acc t ih =>
      exact ih _ (foldl_procIndex_preserves (indicesOf acc) s d h)

theorem foldl_procAccess_establishes (L : List SExpr) (s : Stencil) (d : Dimension)
    (h : ∃ a ∈ L, (SExpr.dim d) ∈ indicesOf a) :
    ∃ v, lookupS (L.foldl procAccess s) d = some v ∧ (0 : Int) ∈ v := by
  induction L generalizing s with
  | nil => obtain ⟨a, ha, _⟩ := h; simp at ha
  | cons acc t ih =>
    obtain ⟨a, ha, hba⟩ := h
    rcases List.mem_cons.mp ha with h1 | h2
    · subst h1
      exact foldl_procAccess_preserves t _ d (foldl_procIndex_establishes _ s d hba)
    · exact ih _ ⟨a, h2, hba⟩

/-- C7: a dimension that appears bare (as a whole index expression, with
no offset) in some indexed access visited by `Stencil.extract` is mapped
by the extracted stencil to a set containing offset 0. -/
theorem c7_stencil_zero (e : Eqn) (d : Dimension) (h : appearsBareB e d = true) :
    (0 : Int) ∈ (Stencil.extract e).get d := by
  unfold appearsBareB at h
  rw [List.any_eq_true] at h
  obtain ⟨a, ha, hia⟩ := h
  rw [List.any_eq_true] at hia
  obtain ⟨i, hi, hmatch⟩ := hia
  have hidim : i = SExpr.dim d := by
    cases i with
    | dim d2 =>
        have : d2 = d := of_decide_eq_true hmatch
        rw [this]
    | int n => simp at hmatch
    | sym s2 => simp at hmatch
    | add p q => simp at hmatch
    | mul p q => simp at hmatch
    | indexed f2 idxs2 => simp at hmatch
  subst hidim
  obtain ⟨v, hv, h0⟩ :=
    foldl_procAccess_establishes (extractAccesses e) [] d ⟨a, ha, hi⟩
  unfold Stencil.extract
  rw [Stencil.get, hv]
  exact h0

/-- C7 (witness): in `f[x, y] = g[x + 1, y - 2]` the dimension `x`
appears bare and the stencil registers offset 0 for it. -/
theorem c7_witness :
    appearsBareB eqnGrid dimX = true ∧ (0 : Int) ∈ (Stencil.extract eqnGrid).get dimX :=
  ⟨by decide, c7_stencil_zero eqnGrid dimX (by decide)⟩

theorem keysS_cons (k : Dimension) (v : Finset Int) (t : Stencil) :
    keysS ((k, v) :: t) = k :: keysS t := rfl

theorem updateD_cons_self (k : Dimension) (v0 v : Finset Int) (t : Stencil) :
    updateD ((k, v0) :: t) k v = (k, v0 ∪ v) :: t := by
  simp [updateD]

theorem updateD_cons_ne (k0 k : Dimension) (v0 v : Finset Int) (t : Stencil)
    (h : k0 ≠ k) : updateD ((k0, v0) :: t) k v = (k0, v0) :: updateD t k v := by
  simp [updateD, h]

theorem updateD_updateD_self (s : Stencil) (k : Dimension) (w v : Finset Int) :
    updateD (updateD s k w) k v = updateD s k (w ∪ v) := by
  induction s with
  | nil =>
    show updateD [(k, w)] k v = [(k, w ∪ v)]
    rw [updateD_cons_self]
  | cons kv t ih =>
    cases kv with
    | mk k0 v0 =>
      by_cases hk : k0 = k
      · subst hk
        rw [updateD_cons_self, updateD_cons_self, updateD_cons_self, Finset.union_assoc]
      · rw [updateD_cons_ne k0 k v0 w t hk, updateD_cons_ne k0 k v0 v _ hk,
          updateD_cons_ne k0 k v0 (w ∪ v) t hk, ih]

theorem mem_keysS_updateD_self (s : Stencil) (k : Dimension) (v : Finset Int) :
    k ∈ keysS (updateD s k v) := by
  induction s with
  | nil => exact List.mem_cons_self _ _
  | cons kv t ih =>
    cases kv with
    | mk k0 w =>
      by_cases hk : k0 = k
      · subst hk
        rw [updateD_cons_self, keysS_cons]
        exact List.mem_cons_self _ _
      · rw [updateD_cons_ne k0 k w v t hk, keysS_cons]
        exact List.mem_cons_of_mem _ ih

theorem mem_keysS_updateD_mono (s : Stencil) (k1 : Dimension) (w : Finset Int)
    (k : Dimension) (h : k ∈ keysS s) : k ∈ keysS (updateD s k1 w) := by
  induction s with
  | nil => simp [keysS] at h
  | cons kv t ih =>
    cases kv with
    | mk k0 v0 =>
      rw [keysS_cons] at h
      by_cases hk : k0 = k1
      · subst hk
        rw [updateD_cons_self, keysS_cons]
        exact h
      · rw [updateD_cons_ne k0 k1 v0 w t hk, keysS_cons]
        rcases List.mem_cons.mp h with h1 | h2
        · exact h1 ▸ List.mem_cons_self _ _
        · exact List.mem_cons_of_mem _ (ih h2)

theorem mem_keysS_updateD_inv (s : Stencil) (k1 : Dimension) (w : Finset Int)
    (k : Dimension) (h : k ∈ keysS (updateD s k1 w)) : k = k1 ∨ k ∈ keysS s := by
  induction s with
  | nil =>
    rcases List.mem_cons.mp h with h1 | h2
    · exact Or.inl h1
    · simp [keysS] at h2
  | cons kv t ih =>
    cases kv with
    | mk k0 v0 =>
      by_cases hk : k0 = k1
      · subst hk
        rw [updateD_cons_self, keysS_cons] at h
        rcases List.mem_cons.mp h with h1 | h2
        · exact Or.inr (h1 ▸ List.mem_cons_self _ _)
        · exact Or.inr (List.mem_cons_of_mem _ h2)
      · rw [updateD_cons_ne k0 k1 v0 w t hk, keysS_cons] at h
        rcases List.mem_cons.mp h with h1 | h2
        · exact Or.inr (h1 ▸ List.mem_cons_self _ _)
        · rcases ih h2 with h3 | h4
          · exact Or.inl h3
          · exact Or.inr (List.mem_cons_of_mem _ h4)

theorem updateD_comm_of_mem (s : Stencil) (k k1 : Dimension) (v w : Finset Int)
    (hne : k ≠ k1) (hmem : k ∈ keysS s) :
    updateD (updateD s k v) k1 w = updateD (updateD s k1 w) k v := by
  induction s with
  | nil => simp [keysS] at hmem
  | cons kv t ih =>
    cases kv with
    | mk k0 v0 =>
      by_cases h0 : k0 = k
      · subst h0
        rw [updateD_cons_self, updateD_cons_ne k0 k1 (v0 ∪ v) w t hne,
          updateD_cons_ne k0 k1 v0 w t hne, updateD_cons_self]
      · by_cases h1 : k0 = k1
        · subst h1
          rw [updateD_cons_ne k0 k v0 v t h0, updateD_cons_self, updateD_cons_self,
            updateD_cons_ne k0 k (v0 ∪ w) v t h0]
        · have hmt : k ∈ keysS t := by
            rw [keysS_cons] at hmem
            rcases List.mem_cons.mp hmem with hc | hc
            · exact absurd hc.symm h0
            · exact hc
          rw [updateD_cons_ne k0 k v0 v t h0, updateD_cons_ne k0 k1 v0 w _ h1,
            updateD_cons_ne k0 k1 v0 w t h1, updateD_cons_ne k0 k v0 v _ h0, ih hmt]

theorem mergeS_cons_outside (t : List (Dimension × Finset Int)) (s : Stencil)
    (k : Dimension) (v : Finset Int) (h : ∀ kv ∈ t, kv.1 ≠ k) :
    mergeS ((k, v) :: s) t = (k, v) :: mergeS s t := by
  induction t generalizing s with
  | nil => rfl
  | cons kv2 t2 ih =>
    cases kv2 with
    | mk k2 w =>
      have hk2 : k ≠ k2 := fun hc => (h (k2, w) (List.mem_cons_self _ _)) (by simp [hc])
      show mergeS (updateD ((k, v) :: s) k2 w) t2 = (k, v) :: mergeS (updateD s k2 w) t2
      rw [updateD_cons_ne k k2 v w s hk2]
      exact ih _ fun kv hm => h kv (List.mem_cons_of_mem _ hm)

theorem mergeS_nil_left (X : Stencil) (h : (keysS X).Nodup) : mergeS [] X = X := by
  induction X with
  | nil => rfl
  | cons kv t ih =>
    cases kv with
    | mk k v =>
      rw [keysS_cons] at h
      have hk : ¬ k ∈ keysS t := (List.nodup_cons.mp h).1
      have ht : (keysS t).Nodup := (List.nodup_cons.mp h).2
      show mergeS (updateD [] k v) t = (k, v) :: t
      rw [show updateD [] k v = (k, v) :: ([] : Stencil) from rfl]
      rw [mergeS_cons_outside t [] k v
        (fun kv hm hc => hk (by rw [← hc]; exact List.mem_map_of_mem Prod.fst hm))]
      rw [ih ht]

theorem keysS_nodup_updateD (s : Stencil) (k : Dimension) (v : Finset Int)
    (h : (keysS s).Nodup) : (keysS (updateD s k v)).Nodup := by
  induction s with
  | nil => simp [updateD, keysS]
  | cons kv t ih =>
    cases kv with
    | mk k0 v0 =>
      rw [keysS_cons] at h
      have h1 := (List.nodup_cons.mp h).1
      have h2 := (List.nodup_cons.mp h).2
      by_cases hk : k0 = k
      · subst hk
        rw [updateD_cons_self, keysS_cons]
        exact List.nodup_cons.mpr ⟨h1, h2⟩
      · rw [updateD_cons_ne k0 k v0 v t hk, keysS_cons]
        refine List.nodup_cons.mpr ⟨?_, ih h2⟩
        intro hc
        rcases mem_keysS_updateD_inv t k v k0 hc with h3 | h4
        · exact hk h3
        · exact h1 h4

theorem keysS_nodup_mergeS (t : List (Dimension × Finset Int)) (s : Stencil)
    (h : (keysS s).Nodup) : (keysS (mergeS s t)).Nodup := by
  induction t generalizing s with
  | nil => exact h
  | cons kv t2 ih =>
    cases kv with
    | mk k v => exact ih _ (keysS_nodup_updateD s k v h)

theorem mergeS_updateD_of_mem (t : List (Dimension × Finset Int)) (s : Stencil)
    (k : Dimension) (v : Finset Int)
    (hout : ∀ kv ∈ t, kv.1 ≠ k) (hmem : k ∈ keysS s) :
    mergeS (updateD s k v) t = updateD (mergeS s t) k v := by
  induction t generalizing s with
  | nil => rfl
  | cons kv2 t2 ih =>
    cases kv2 with
    | mk k1 w =>
      have hne : k ≠ k1 := fun hc => (hout (k1, w) (List.mem_cons_self _ _)) (by simp [hc])
      show mergeS (updateD (updateD s k v) k1 w) t2
          = updateD (mergeS (updateD s k1 w) t2) k v
      rw [updateD_comm_of_mem s k k1 v w hne hmem]
      exact ih (updateD s k1 w)
        (fun kv hm => hout kv (List.mem_cons_of_mem _ hm))
        (mem_keysS_updateD_mono s k1 w k hmem)

theorem mergeS_updateD_fold (t : List (Dimension × Finset Int)) (s : Stencil)
    (k : Dimension) (v : Finset Int) (h : (keysS t).Nodup) :
    mergeS s (updateD t k v) = updateD (mergeS s t) k v := by
  induction t generalizing s with
  | nil => rfl
  | cons kv t2 ih =>
    cases kv with
    | mk k0 w =>
      rw [keysS_cons] at h
      have h1 := (List.nodup_cons.mp h).1
      have h2 := (List.nodup_cons.mp h).2
      have hout : ∀ kv ∈ t2, kv.1 ≠ k0 := by
        intro kv hm hc
        exact h1 (by rw [← hc]; exact List.mem_map_of_mem Prod.fst hm)
      by_cases hk : k0 = k
      · subst hk
        rw [updateD_cons_self]
        show mergeS (updateD s k0 (w ∪ v)) t2 = updateD (mergeS (updateD s k0 w) t2) k0 v
        rw [← updateD_updateD_self s k0 w v]
        exact mergeS_updateD_of_mem t2 (updateD s k0 w) k0 v hout
          (mem_keysS_updateD_self s k0 w)
      · rw [updateD_cons_ne k0 k w v t2 hk]
        show mergeS (updateD s k0 w) (updateD t2 k v)
            = updateD (mergeS (updateD s k0 w) t2) k v
        exact ih (updateD s k0 w) h2

theorem mergeS_assoc (u t : List (Dimension × Finset Int)) (s : Stencil)
    (h : (keysS t).Nodup) :
    mergeS s (mergeS t u) = mergeS (mergeS s t) u := by
  induction u generalizing t s with
  | nil => rfl
  | cons kv u2 ih =>
    cases kv with
    | mk k v =>
      show mergeS s (mergeS (updateD t k v) u2) = mergeS (updateD (mergeS s t) k v) u2
      rw [ih (updateD t k v) s (keysS_nodup_updateD t k v h)]
      rw [mergeS_updateD_fold t s k v h]

theorem foldl_union_init (l : List (Finset Int)) (a b : Finset Int) :
    l.foldl (· ∪ ·) (a ∪ b) = a ∪ l.foldl (· ∪ ·) b := by
  induction l generalizing b with
  | nil => rfl
  | cons x t ih =>
    simp only [List.foldl_cons]
    rw [Finset.union_assoc, ih]

theorem lookup_mergeS_not_mem (t : List (Dimension × Finset Int)) (s : Stencil)
    (d : Dimension) (h : ¬ d ∈ keysS t) :
    lookupS (mergeS s t) d = lookupS s d := by
  induction t generalizing s with
  | nil => rfl
  | cons kv t2 ih =>
    cases kv with
    | mk k w =>
      rw [keysS_cons] at h
      have hk : k ≠ d := fun hc => h (hc ▸ List.mem_cons_self _ _)
      have ht : ¬ d ∈ keysS t2 := fun hc => h (List.mem_cons_of_mem _ hc)
      show lookupS (mergeS (updateD s k w) t2) d = lookupS s d
      rw [ih _ ht, lookupS_updateD_other s k w d hk]

theorem lookup_mergeS_mem (t : List (Dimension × Finset Int)) (s : Stencil)
    (d : Dimension) (h : d ∈ keysS t) :
    lookupS (mergeS s t) d =
      some ((lookupS s d).getD ∅ ∪
        (((t.filter fun kv => kv.1 = d).map Prod.snd).foldl (· ∪ ·) ∅)) := by
  induction t generalizing s with
  | nil => simp [keysS] at h
  | cons kv t2 ih =>
    cases kv with
    | mk k w =>
      by_cases hk : k = d
      · subst hk
        rw [List.filter_cons_of_pos (by simp), List.map_cons, List.foldl_cons,
          Finset.empty_union]
        show lookupS (mergeS (updateD s k w) t2) k = _
        by_cases h2 : k ∈ keysS t2
        · rw [ih _ h2, lookupS_updateD_self s k w, Option.getD_some]
          have hfold :
              (List.map Prod.snd (List.filter (fun kv => decide (kv.1 = k)) t2)).foldl
                  (· ∪ ·) w
                = w ∪ (List.map Prod.snd
                    (List.filter (fun kv => decide (kv.1 = k)) t2)).foldl (· ∪ ·) ∅ := by
            conv_lhs => rw [← Finset.union_empty w]
            exact foldl_union_init _ w ∅
          rw [hfold, ← Finset.union_assoc]
        · rw [lookup_mergeS_not_mem t2 _ k h2, lookupS_updateD_self s k w]
          have hfe : t2.filter (fun kv => decide (kv.1 = k)) = [] := by
            rw [List.filter_eq_nil_iff]
            intro kv hm
            simp only [decide_eq_true_eq]
            intro hc
            exact h2 (by rw [← hc]; exact List.mem_map_of_mem Prod.fst hm)
          rw [hfe]
          rfl
      · have h2 : d ∈ keysS t2 := by
          rw [keysS_cons] at h
          rcases List.mem_cons.mp h with hc | hc
          · exact absurd hc.symm hk
          · exact hc
        rw [List.filter_cons_of_neg (by simp [hk])]
        show lookupS (mergeS (updateD s k w) t2) d = _
        rw [ih _ h2, lookupS_updateD_other s k w d hk]

theorem union2_lookup_comm (A B : Stencil) (d : Dimension) :
    lookupS (Stencil.union [A, B]) d = lookupS (Stencil.union [B, A]) d := by
  show lookupS (mergeS (mergeS [] A) B) d = lookupS (mergeS (mergeS [] B) A) d
  by_cases hA : d ∈ keysS A <;> by_cases hB : d ∈ keysS B
  · rw [lookup_mergeS_mem B (mergeS [] A) d hB, lookup_mergeS_mem A (mergeS [] B) d hA,
      lookup_mergeS_mem A ([] : Stencil) d hA, lookup_mergeS_mem B ([] : Stencil) d hB]
    simp only [lookupS, Option.getD_none, Finset.empty_union, Option.getD_some]
    rw [Finset.union_comm]
  · rw [lookup_mergeS_not_mem B (mergeS [] A) d hB, lookup_mergeS_mem A (mergeS [] B) d hA,
      lookup_mergeS_mem A ([] : Stencil) d hA, lookup_mergeS_not_mem B ([] : Stencil) d hB]
  · rw [lookup_mergeS_mem B (mergeS [] A) d hB, lookup_mergeS_not_mem A (mergeS [] B) d hA,
      lookup_mergeS_not_mem A ([] : Stencil) d hA, lookup_mergeS_mem B ([] : Stencil) d hB]
  · rw [lookup_mergeS_not_mem B (mergeS [] A) d hB,
      lookup_mergeS_not_mem A (mergeS [] B) d hA,
      lookup_mergeS_not_mem A ([] : Stencil) d hA,
      lookup_mergeS_not_mem B ([] : Stencil) d hB]

/-- C8 (counterexample): `Stencil.union` is *not* commutative under the
ordered-mapping equality the data model prescribes (insertion order is
significant, and the `DefaultOrderedDict` base class compares
order-sensitively): with disjoint one-key operands the two unions store
the keys in opposite orders. -/
theorem c8_counterexample :
    Stencil.union [stX, stY] ≠ Stencil.union [stY, stX] := by decide

/-- C8 (amended): `Stencil.union` is associative as stated (exact,
order-sensitive equality), and commutative only up to content — for every
dimension the two orders store the same offset set (and the same
presence/absence), but the key insertion orders differ. -/
theorem c8_union_assoc_comm (A B C : Stencil) :
    Stencil.union [Stencil.union [A, B], C] = Stencil.union [A, Stencil.union [B, C]] ∧
    ∀ d, lookupS (Stencil.union [A, B]) d = lookupS (Stencil.union [B, A]) d := by
  constructor
  · show mergeS (mergeS [] (mergeS (mergeS [] A) B)) C
        = mergeS (mergeS [] A) (mergeS (mergeS [] B) C)
    have hZ : (keysS (mergeS (mergeS [] A) B)).Nodup :=
      keysS_nodup_mergeS B _ (keysS_nodup_mergeS A [] (by simp [keysS]))
    rw [mergeS_nil_left _ hZ]
    rw [mergeS_assoc C (mergeS [] B) (mergeS [] A)
      (keysS_nodup_mergeS B [] (by simp [keysS]))]
    rw [mergeS_assoc B ([] : Stencil) (mergeS [] A) (by simp [keysS])]
    rfl
  · exact union2_lookup_comm A B

theorem idxOf_cons_self (a : RElem) (t : List RElem) : idxOf a (a :: t) = 0 := by
  simp [idxOf]

theorem idxOf_cons_ne (a b : RElem) (t : List RElem) (h : b ≠ a) :
    idxOf a (b :: t) = idxOf a t + 1 := by
  simp [idxOf, h]

theorem pickNext_mem (edge : RElem → RElem → Bool) (rem : List RElem) (v : RElem)
    (h : pickNext edge rem = some v) : v ∈ rem :=
  List.mem_of_find?_eq_some h

theorem pickNext_no_incoming (edge : RElem → RElem → Bool) (rem : List RElem) (v : RElem)
    (h : pickNext edge rem = some v) (u : RElem) (hu : u ∈ rem) (hne : u ≠ v) :
    edge u v = false := by
  have hp := List.find?_some h
  rw [List.all_eq_true] at hp
  have h2 := hp u hu
  rw [Bool.or_eq_true] at h2
  rcases h2 with h3 | h3
  · exact absurd (of_decide_eq_true h3) hne
  · simpa using h3

theorem kahn_spec (edge : RElem → RElem → Bool) :
    ∀ (fuel : Nat) (rem out : List RElem), kahn edge fuel rem = some out → rem.Nodup →
      out.Perm rem ∧
        ∀ a b : RElem, a ∈ rem → b ∈ rem → a ≠ b → edge a b = true →
          idxOf a out < idxOf b out := by
  intro fuel
  induction fuel with
  | zero =>
    intro rem out h hn
    cases rem with
    | nil =>
      have hout : out = [] :=
        (Option.some.inj (show some [] = some out from h)).symm
      subst hout
      exact ⟨List.Perm.refl _, fun a b ha => absurd ha (List.not_mem_nil a)⟩
    | cons v0 rest => exact absurd h (by rw [show kahn edge 0 (v0 :: rest) = none from rfl]; simp)
  | succ n ih =>
    intro rem out h hn
    cases rem with
    | nil =>
      have hout : out = [] :=
        (Option.some.inj (show some [] = some out from h)).symm
      subst hout
      exact ⟨List.Perm.refl _, fun a b ha => absurd ha (List.not_mem_nil a)⟩
    | cons v0 rest =>
      rw [show kahn edge (n + 1) (v0 :: rest)
          = (match pickNext edge (v0 :: rest) with
            | none => none
            | some v => (kahn edge n ((v0 :: rest).erase v)).map (v :: ·)) from rfl] at h
      cases hp : pickNext edge (v0 :: rest) with
      | none => rw [hp] at h; exact absurd h (by simp)
      | some v =>
        rw [hp] at h
        simp only [] at h
        cases hk : kahn edge n ((v0 :: rest).erase v) with
        | none => rw [hk] at h; exact absurd h (by simp)
        | some out2 =>
          rw [hk] at h
          have hout : out = v :: out2 := by
            simpa using h.symm
          subst hout
          have hvmem : v ∈ v0 :: rest := pickNext_mem edge _ v hp
          have hn2 : ((v0 :: rest).erase v).Nodup := hn.erase v
          obtain ⟨hperm2, horder2⟩ := ih _ _ hk hn2
          have hpermrem : (v :: out2).Perm (v0 :: rest) :=
            (hperm2.cons v).trans (List.perm_cons_erase hvmem).symm
          refine ⟨hpermrem, ?_⟩
          intro a b ha hb hne hedge
          by_cases hbv : b = v
          · subst hbv
            exact absurd hedge
              (by rw [pickNext_no_incoming edge _ _ hp a ha hne]; simp)
          · by_cases hav : a = v
            · subst hav
              rw [idxOf_cons_self, idxOf_cons_ne b a out2 (fun hc => hbv hc.symm)]
              omega
            · have ha2 : a ∈ (v0 :: rest).erase v := (List.mem_erase_of_ne hav).mpr ha
              have hb2 : b ∈ (v0 :: rest).erase v := (List.mem_erase_of_ne hbv).mpr hb
              have hlt := horder2 a b ha2 hb2 hne hedge
              rw [idxOf_cons_ne a v out2 (fun hc => hav hc.symm),
                idxOf_cons_ne b v out2 (fun hc => hbv hc.symm)]
              omega

theorem verts_nodup (elements : List RElem) (rels : List (List RElem)) :
    (verts elements rels).Nodup := by
  unfold verts
  refine List.Nodup.append (List.nodup_dedup _) ?_ ?_
  · exact ((List.perm_insertionSort _ _).nodup_iff).mpr (List.nodup_dedup _)
  · intro x hx1 hx2
    have hx3 := (List.perm_insertionSort _ _).mem_iff.mp hx2
    rw [List.mem_dedup, List.mem_filter] at hx3
    have := hx3.2
    simp at this
    exact this (List.mem_dedup.mp hx1)

theorem mem_verts_of_mem_flatten (elements : List RElem) (rels : List (List RElem))
    (a : RElem) (h : a ∈ rels.flatten) : a ∈ verts elements rels := by
  unfold verts
  by_cases hb : a ∈ elements.dedup
  · exact List.mem_append.mpr (Or.inl hb)
  · refine List.mem_append.mpr (Or.inr ?_)
    rw [(List.perm_insertionSort _ _).mem_iff, List.mem_dedup]
    exact List.mem_filter.mpr ⟨h, by simpa using hb⟩

theorem resolve_spec (elements : List RElem) (rels : List (List RElem)) (out : List RElem)
    (h : resolve elements rels = some out) :
    out.Perm (verts elements rels) ∧
      ∀ a b : RElem, a ∈ verts elements rels → b ∈ verts elements rels → a ≠ b →
        hasEdge rels a b = true → idxOf a out < idxOf b out := by
  unfold resolve at h
  exact kahn_spec (hasEdge rels) _ _ _ h (verts_nodup elements rels)

theorem adjPair_append (t1 : List RElem) (a b : RElem) (t2 : List RElem) :
    adjPair (t1 ++ a :: b :: t2) a b = true := by
  induction t1 with
  | nil => simp [adjPair]
  | cons x t1x ih =>
    have hne2 : t1x ++ a :: b :: t2 ≠ [] := by simp
    cases hsplit : t1x ++ a :: b :: t2 with
    | nil => exact absurd hsplit hne2
    | cons y rest =>
      show adjPair (x :: (t1x ++ a :: b :: t2)) a b = true
      rw [hsplit]
      rw [show adjPair (x :: y :: rest) a b
          = ((decide (x = a) && decide (y = b)) || adjPair (y :: rest) a b) from rfl]
      rw [← hsplit, ih]
      simp

theorem hasEdge_of_adj (rels : List (List RElem)) (r : List RElem) (a b : RElem)
    (hr : r ∈ rels) (hadj : adjPair r a b = true) : hasEdge rels a b = true := by
  unfold hasEdge
  rw [List.any_eq_true]
  exact ⟨r, hr, hadj⟩

/-- C2 (counterexample): for `f[x, x] = 0` the extracted relation is
`(x, x)`, and no output sequence can place `x` strictly before `x`; the
sort nevertheless succeeds (self-dependencies are ignored), so the
claimed topological validity fails for relations with repeated
dimensions. -/
theorem c2_counterexample :
    extractedRelations eqnRep = [[dimX, dimX]] ∧
    dimension_sort eqnRep = .ok [RElem.dim dimX] ∧
    ¬ before [RElem.dim dimX] (RElem.dim dimX) (RElem.dim dimX) := by
  refine ⟨by decide, by decide, by decide⟩

/-- C2 (amended): for every equation *without* a Subdomain Ordering (the
subdomain path replaces the extracted relations with a reordered combined
relation, see C1) and every extracted relation tuple, whenever
`dimension_sort` succeeds its output places every pair of *distinct*
consecutive dimensions of the tuple in order. -/
theorem c2_topological_valid (e : Eqn) (out : List RElem) (r : List Dimension)
    (a b : Dimension) (t1 t2 : List Dimension)
    (hok : dimension_sort e = .ok out) (hsub : e.subdomain = none)
    (hr : r ∈ extractedRelations e) (hsplit : r = t1 ++ a :: b :: t2) (hne : a ≠ b) :
    before out (RElem.dim a) (RElem.dim b) := by
  have hcls : classifyRelations e
      = .ok ((extractedRelations e).map fun r2 => r2.map RElem.dim) := by
    unfold classifyRelations
    rw [hsub]
    rfl
  set RS := (((extractedRelations e).map fun r2 => r2.map RElem.dim)
      ++ (parentRels (extraOf e)
        ++ ((extractedRelations e).map fun r2 => r2.map RElem.dim).map
            (List.map rootElem))).dedup with hRS
  have hall : allRelations e = .ok RS := by
    unfold allRelations
    rw [hcls]
  have hres : resolve ((extraOf e).map RElem.dim) RS = some out := by
    unfold dimension_sort at hok
    rw [hall] at hok
    simp only [] at hok
    cases hr2 : resolve ((extraOf e).map RElem.dim) RS with
    | some o =>
        rw [hr2] at hok
        simp only [] at hok
        rw [show o = out from Except.ok.inj hok]
    | none => rw [hr2] at hok; exact absurd hok (by simp)
  have hmem : r.map RElem.dim ∈ RS := by
    rw [hRS, List.mem_dedup]
    exact List.mem_append.mpr (Or.inl (List.mem_map_of_mem _ hr))
  have hadj : adjPair (r.map RElem.dim) (RElem.dim a) (RElem.dim b) = true := by
    rw [hsplit, List.map_append, List.map_cons, List.map_cons]
    exact adjPair_append (t1.map RElem.dim) _ _ (t2.map RElem.dim)
  have hedge := hasEdge_of_adj RS _ _ _ hmem hadj
  have hamem : RElem.dim a ∈ RS.flatten :=
    List.mem_flatten.mpr ⟨r.map RElem.dim, hmem, by rw [hsplit]; simp⟩
  have hbmem : RElem.dim b ∈ RS.flatten :=
    List.mem_flatten.mpr ⟨r.map RElem.dim, hmem, by rw [hsplit]; simp⟩
  have hav := mem_verts_of_mem_flatten ((extraOf e).map RElem.dim) RS _ hamem
  have hbv := mem_verts_of_mem_flatten ((extraOf e).map RElem.dim) RS _ hbmem
  obtain ⟨hperm, horder⟩ := resolve_spec _ _ _ hres
  have hlt := horder _ _ hav hbv (fun hc => hne (by injection hc)) hedge
  exact ⟨hperm.mem_iff.mpr hav, hperm.mem_iff.mpr hbv, hlt⟩

/-- C2 (witness): for `f[x, y] = g[x + 1, y - 2]` the relation `(x, y)`
is respected by the output `(x, y)`. -/
theorem c2_witness :
    dimension_sort eqnGrid = .ok [RElem.dim dimX, RElem.dim dimY] ∧
    before [RElem.dim dimX, RElem.dim dimY] (RElem.dim dimX) (RElem.dim dimY) :=
  ⟨by decide,
    c2_topological_valid eqnGrid [RElem.dim dimX, RElem.dim dimY] [dimX, dimY]
      dimX dimY [] [] (by decide) rfl (by decide) rfl (by decide)⟩

theorem charListLe_total : ∀ s t : List Char, charListLe s t = true ∨ charListLe t s = true
  | [], _ => Or.inl rfl
  | _ :: _, [] => Or.inr rfl
  | a :: s, b :: t => by
      by_cases h1 : a.toNat < b.toNat
      · left
        simp [charListLe, h1]
      · by_cases h2 : b.toNat < a.toNat
        · right
          simp [charListLe, h2]
        · rcases charListLe_total s t with h | h
          · left; simp [charListLe, h1, h2, h]
          · right; simp [charListLe, h1, h2, h]

theorem charListLe_trans : ∀ s t u : List Char,
    charListLe s t = true → charListLe t u = true → charListLe s u = true
  | [], _, _, _, _ => rfl
  | _ :: _, [], _, h1, _ => by simp [charListLe] at h1
  | _ :: _, _ :: _, [], _, h2 => by simp [charListLe] at h2
  | a :: s, b :: t, c :: u, h1, h2 => by
      rw [show charListLe (a :: s) (b :: t)
          = (if a.toNat < b.toNat then true
             else if b.toNat < a.toNat then false else charListLe s t) from rfl] at h1
      rw [show charListLe (b :: t) (c :: u)
          = (if b.toNat < c.toNat then true
             else if c.toNat < b.toNat then false else charListLe t u) from rfl] at h2
      rw [show charListLe (a :: s) (c :: u)
          = (if a.toNat < c.toNat then true
             else if c.toNat < a.toNat then false else charListLe s u) from rfl]
      by_cases hba : b.toNat < a.toNat
      · rw [if_neg (by omega), if_pos hba] at h1
        exact absurd h1 (by simp)
      · by_cases hcb : c.toNat < b.toNat
        · rw [if_neg (by omega), if_pos hcb] at h2
          exact absurd h2 (by simp)
        · by_cases hac : a.toNat < c.toNat
          · rw [if_pos hac]
          · have hca : ¬ c.toNat < a.toNat := by omega
            rw [if_neg hac, if_neg hca]
            have hab : ¬ a.toNat < b.toNat := by omega
            have hbc : ¬ b.toNat < c.toNat := by omega
            rw [if_neg hab, if_neg hba] at h1
            rw [if_neg hbc, if_neg hcb] at h2
            exact charListLe_trans s t u h1 h2

theorem charListLe_antisymm : ∀ s t : List Char,
    charListLe s t = true → charListLe t s = true → s = t
  | [], [], _, _ => rfl
  | [], _ :: _, _, h2 => by simp [charListLe] at h2
  | _ :: _, [], h1, _ => by simp [charListLe] at h1
  | a :: s, b :: t, h1, h2 => by
      rw [show charListLe (a :: s) (b :: t)
          = (if a.toNat < b.toNat then true
             else if b.toNat < a.toNat then false else charListLe s t) from rfl] at h1
      rw [show charListLe (b :: t) (a :: s)
          = (if b.toNat < a.toNat then true
             else if a.toNat < b.toNat then false else charListLe t s) from rfl] at h2
      by_cases hab : a.toNat < b.toNat
      · rw [if_neg (by omega), if_pos hab] at h2
        exact absurd h2 (by simp)
      · by_cases hba : b.toNat < a.toNat
        · rw [if_neg hab, if_pos hba] at h1
          exact absurd h1 (by simp)
        · rw [if_neg hab, if_neg hba] at h1
          rw [if_neg hba, if_neg hab] at h2
          have hn : a.toNat = b.toNat := by omega
          have hch : a = b := Char.ext (UInt32.ext hn)
          rw [hch, charListLe_antisymm s t h1 h2]

theorem strLe_total (a b : String) : strLe a b = true ∨ strLe b a = true :=
  charListLe_total a.data b.data

theorem strLe_trans (a b c : String) (h1 : strLe a b = true) (h2 : strLe b c = true) :
    strLe a c = true :=
  charListLe_trans a.data b.data c.data h1 h2

theorem strLe_antisymm (a b : String) (h1 : strLe a b = true) (h2 : strLe b a = true) :
    a = b := by
  have h := charListLe_antisymm a.data b.data h1 h2
  cases a
  cases b
  exact congrArg String.mk h

theorem sorted_perm_eq_of_key {α : Type} (key : α → String) :
    ∀ (l₁ l₂ : List α), l₁.Perm l₂ →
      l₁.Sorted (fun x y => strLe (key x) (key y) = true) →
      l₂.Sorted (fun x y => strLe (key x) (key y) = true) →
      (∀ x ∈ l₁, ∀ y ∈ l₁, key x = key y → x = y) → l₁ = l₂
  | [], l₂, p, _, _, _ => p.nil_eq
  | a :: t₁, l₂, p, s₁, s₂, hinj => by
      cases l₂ with
      | nil => exact absurd p.symm.nil_eq (by simp)
      | cons b t₂ =>
        by_cases hab : a = b
        · subst hab
          have p2 := p.cons_inv
          have hrec := sorted_perm_eq_of_key key t₁ t₂ p2 s₁.of_cons s₂.of_cons
            (fun x hx y hy => hinj x (List.mem_cons_of_mem _ hx) y (List.mem_cons_of_mem _ hy))
          rw [hrec]
        · have haIn : a ∈ b :: t₂ := p.mem_iff.mp (List.mem_cons_self a t₁)
          have hbIn : b ∈ a :: t₁ := p.mem_iff.mpr (List.mem_cons_self b t₂)
          have ha2 : a ∈ t₂ := by
            rcases List.mem_cons.mp haIn with hc | hc
            · exact absurd hc hab
            · exact hc
          have hb2 : b ∈ t₁ := by
            rcases List.mem_cons.mp hbIn with hc | hc
            · exact absurd hc.symm hab
            · exact hc
          have r1 : strLe (key a) (key b) = true := (List.pairwise_cons.mp s₁).1 b hb2
          have r2 : strLe (key b) (key a) = true := (List.pairwise_cons.mp s₂).1 a ha2
          have hk : key a = key b := strLe_antisymm _ _ r1 r2
          exact absurd
            (hinj a (List.mem_cons_self a t₁) b (List.mem_cons_of_mem _ hb2) hk) hab

theorem perm_flatten_of_perm {l₁ l₂ : List (List RElem)} (p : l₁.Perm l₂) :
    l₁.flatten.Perm l₂.flatten := by
  induction p with
  | nil => exact List.Perm.refl _
  | cons x _ ih =>
      show (x ++ _).Perm (x ++ _)
      exact ih.append_left x
  | swap x y l =>
      show (y ++ (x ++ l.flatten)).Perm (x ++ (y ++ l.flatten))
      rw [← List.append_assoc, ← List.append_assoc]
      exact (List.perm_append_comm).append_right l.flatten
  | trans _ _ ih1 ih2 => exact ih1.trans ih2

theorem any_eq_of_perm {l₁ l₂ : List (List RElem)} (p : l₁.Perm l₂)
    (f : List RElem → Bool) : l₁.any f = l₂.any f := by
  rw [Bool.eq_iff_iff, List.any_eq_true, List.any_eq_true]
  constructor
  · rintro ⟨x, hx, hf⟩; exact ⟨x, p.mem_iff.mp hx, hf⟩
  · rintro ⟨x, hx, hf⟩; exact ⟨x, p.mem_iff.mpr hx, hf⟩

theorem verts_eq_of_perm (elements : List RElem) (rels1 rels2 : List (List RElem))
    (hp : rels1.Perm rels2)
    (hinj : ∀ x ∈ rels1.flatten, ∀ y ∈ rels1.flatten, sortKey x = sortKey y → x = y) :
    verts elements rels1 = verts elements rels2 := by
  haveI hTot : IsTotal RElem (fun x y => strLe (sortKey x) (sortKey y) = true) :=
    ⟨fun a b => strLe_total _ _⟩
  haveI hTrans : IsTrans RElem (fun x y => strLe (sortKey x) (sortKey y) = true) :=
    ⟨fun a b c => strLe_trans _ _ _⟩
  have hpf :
      ((rels1.flatten.filter fun v => decide (¬ v ∈ elements.dedup)).dedup).Perm
        ((rels2.flatten.filter fun v => decide (¬ v ∈ elements.dedup)).dedup) :=
    ((perm_flatten_of_perm hp).filter _).dedup
  have hmem1 : ∀ x ∈ List.insertionSort (fun a b => strLe (sortKey a) (sortKey b) = true)
      ((rels1.flatten.filter fun v => decide (¬ v ∈ elements.dedup)).dedup),
      x ∈ rels1.flatten := by
    intro x hx
    have hx2 := (List.perm_insertionSort _ _).mem_iff.mp hx
    rw [List.mem_dedup, List.mem_filter] at hx2
    exact hx2.1
  have hs :
      List.insertionSort (fun a b => strLe (sortKey a) (sortKey b) = true)
        ((rels1.flatten.filter fun v => decide (¬ v ∈ elements.dedup)).dedup)
      = List.insertionSort (fun a b => strLe (sortKey a) (sortKey b) = true)
        ((rels2.flatten.filter fun v => decide (¬ v ∈ elements.dedup)).dedup) := by
    apply sorted_perm_eq_of_key sortKey
    · exact ((List.perm_insertionSort _ _).trans hpf).trans
        (List.perm_insertionSort _ _).symm
    · exact List.sorted_insertionSort _ _
    · exact List.sorted_insertionSort _ _
    · intro x hx y hy
      exact hinj x (hmem1 x hx) y (hmem1 y hy)
  show elements.dedup ++ _ = elements.dedup ++ _
  rw [hs]

/-- C3: the resolver is a deterministic function of its input — in
particular its output does not depend on the enumeration order of the
relation set (the only freedom a Python `set` has), provided the
deterministic secondary key (name) separates the mentioned vertices, as
the data model's "name is a unique identifier" guarantees; ties are
broken by the declared order of `elements`, then by name. -/
theorem c3_resolve_deterministic (elements : List RElem) (rels1 rels2 : List (List RElem))
    (hp : rels1.Perm rels2)
    (hinj : ∀ x ∈ rels1.flatten, ∀ y ∈ rels1.flatten, sortKey x = sortKey y → x = y) :
    resolve elements rels1 = resolve elements rels2 := by
  have hverts := verts_eq_of_perm elements rels1 rels2 hp hinj
  have hedge : hasEdge rels1 = hasEdge rels2 := by
    funext a b
    unfold hasEdge
    exact any_eq_of_perm hp _
  unfold resolve
  rw [hverts, hedge]

/-- C3 (witness): two enumeration orders of the same relation set give
the same resolved sequence. -/
theorem c3_witness :
    resolve [] [[RElem.dim dimX], [RElem.dim dimY]]
      = resolve [] [[RElem.dim dimY], [RElem.dim dimX]] ∧
    resolve [] [[RElem.dim dimX], [RElem.dim dimY]]
      = some [RElem.dim dimX, RElem.dim dimY] :=
  ⟨c3_resolve_deterministic [] _ _ (by decide) (by decide), by decide⟩

end Devito
